import Mathlib

/-!
Shallow embedding of the `leb128` crate (DWARF Little Endian Base 128
variable-length integer codec) and proofs about its encode/decode routines.

Source layout embedded here:
* `src/lib.rs`: the constants `CONTINUATION_BIT`, `SIGN_BIT` and the helpers
  `low_bits_of_byte`, `low_bits_of_u64`.
* `src/read.rs`: `read_signed` / `read_unsigned`, provided twice, once for
  `R: io::Read` (end of input surfaces as an `io::Error` of kind
  `UnexpectedEof`) and once for `R: bytes::Buf` (end of input makes `get_u8`
  assert, i.e. abort the program).
* `src/write.rs`: `write_signed` / `write_unsigned` for `W: bytes::BufMut`
  (`put_u8` asserts when the sink has no remaining capacity; a growable
  `BytesMut` sink never exhausts).

Conventions of the embedding:
* `u8` and `u64` values are `Nat`; every operation below stays inside the
  machine range except the `i64` left shift in `read_signed`, which is taken
  modulo `2 ^ 64` exactly where the machine operation wraps.
* `i64` values are `Int` at the interface; inside `read_signed` the
  accumulator is kept as its two's-complement bit pattern (a `Nat` below
  `2 ^ 64`) and reinterpreted by `toInt64` at the end. The arithmetic right
  shift `val >>= k` of the signed writer is `Int.fdiv val (2 ^ k)` (floor
  division), and `val as u8` is `(val % 256).toNat` (`%` on `Int` is `emod`,
  which is non-negative here).
* A byte source is a `List Nat`; a mutable `&mut R` reader is modelled by
  returning the value paired with the remaining list. A `BytesMut` sink is
  the list of bytes emitted so far; a bounded `&mut [u8]` sink additionally
  carries its capacity.
-/

namespace Leb128

/-- `CONTINUATION_BIT` from src/lib.rs: `1 << 7`. -/
def CONTINUATION_BIT : Nat := 128

/-- `SIGN_BIT` from src/lib.rs: `1 << 6`. -/
def SIGN_BIT : Nat := 64

/-- `low_bits_of_byte` from src/lib.rs: `byte & !CONTINUATION_BIT`; for `u8`
the complement of `0x80` is `0x7f`. -/
def low_bits_of_byte (byte : Nat) : Nat := byte &&& 127

/-- `low_bits_of_u64` from src/lib.rs: `low_bits_of_byte((val & 0xff) as u8)`. -/
def low_bits_of_u64 (val : Nat) : Nat := low_bits_of_byte (val &&& 255)

/-- `read::Error` from src/read.rs. The `io::Read`-based impl only ever meets
an `io::Error` of kind `UnexpectedEof` (from `read_exact` on an exhausted
slice), so the `IoError` variant is embedded as `eof`. -/
inductive Error where
  | eof
  | overflow
deriving DecidableEq

/-- Loop of `read_unsigned` for `R: io::Read` (src/read.rs lines 94-115),
as a recursion over the remaining byte source. State: `result`, `shift`.
An empty source makes `read_exact` fail with `UnexpectedEof`. -/
def readUnsignedLoop : Nat → Nat → List Nat → Except Error (Nat × List Nat)
  | _, _, [] => .error .eof
  | result, shift, byte :: rest =>
    if shift = 63 ∧ byte ≠ 0x00 ∧ byte ≠ 0x01 then .error .overflow
    else
      let low_bits := low_bits_of_byte byte
      let result' := result ||| (low_bits <<< shift)
      if byte &&& CONTINUATION_BIT = 0 then .ok (result', rest)
      else readUnsignedLoop result' (shift + 7) rest

/-- `read_unsigned` for `R: io::Read`: run the loop from `result = 0`,
`shift = 0`. Returns the decoded value and the remaining source. -/
def read_unsigned (l : List Nat) : Except Error (Nat × List Nat) :=
  readUnsignedLoop 0 0 l

/-- Two's-complement reinterpretation of a 64-bit pattern as an `i64`. -/
def toInt64 (n : Nat) : Int := if n < 2 ^ 63 then (n : Int) else (n : Int) - 2 ^ 64

/-- Loop of `read_signed` for `R: io::Read` (src/read.rs lines 62-92). The
accumulator is the two's-complement bit pattern of the `i64` `result`; the
`i64` shift `low_bits << shift` wraps modulo `2 ^ 64`. On `break` the loop
hands the final `result`, `shift` and `byte` to `readSignedFinish`. -/
def readSignedLoop : Nat → Nat → List Nat → Except Error (Nat × Nat × Nat × List Nat)
  | _, _, [] => .error .eof
  | result, shift, byte :: rest =>
    if shift = 63 ∧ byte ≠ 0x00 ∧ byte ≠ 0x7f then .error .overflow
    else
      let low_bits := low_bits_of_byte byte
      let result' := result ||| (low_bits <<< shift) % 2 ^ 64
      if byte &&& CONTINUATION_BIT = 0 then .ok (result', shift + 7, byte, rest)
      else readSignedLoop result' (shift + 7) rest

/-- Code after the loop of `read_signed`: sign extension. `size` is 64 and
`result |= !(0 as i64) << shift` sets every bit from `shift` upward, i.e. ORs
with `(2 ^ 64 - 1) <<< shift` modulo `2 ^ 64`. -/
def readSignedFinish : Nat × Nat × Nat × List Nat → Int × List Nat
  | (result, shift, byte, rest) =>
    if shift < 64 ∧ SIGN_BIT &&& byte = SIGN_BIT then
      (toInt64 (result ||| ((2 ^ 64 - 1) <<< shift) % 2 ^ 64), rest)
    else
      (toInt64 result, rest)

/-- `read_signed` for `R: io::Read`. -/
def read_signed (l : List Nat) : Except Error (Int × List Nat) :=
  (readSignedLoop 0 0 l).map readSignedFinish

/-- Loop of `read_unsigned` for `R: bytes::Buf` (src/read.rs lines 151-171).
Identical to the `io::Read` version except that `get_u8` on an exhausted
buffer asserts (aborts) instead of returning an error; `none` models that
abort, `some` a value-level return. -/
def readUnsignedLoopBuf : Nat → Nat → List Nat → Option (Except Error (Nat × List Nat))
  | _, _, [] => none
  | result, shift, byte :: rest =>
    if shift = 63 ∧ byte ≠ 0x00 ∧ byte ≠ 0x01 then some (.error .overflow)
    else
      let low_bits := low_bits_of_byte byte
      let result' := result ||| (low_bits <<< shift)
      if byte &&& CONTINUATION_BIT = 0 then some (.ok (result', rest))
      else readUnsignedLoopBuf result' (shift + 7) rest

/-- `read_unsigned` for `R: bytes::Buf`. -/
def read_unsigned_buf (l : List Nat) : Option (Except Error (Nat × List Nat)) :=
  readUnsignedLoopBuf 0 0 l

/-- Loop of `read_signed` for `R: bytes::Buf` (src/read.rs lines 123-149);
`get_u8` on an exhausted buffer asserts, modelled by `none`. -/
def readSignedLoopBuf : Nat → Nat → List Nat → Option (Except Error (Nat × Nat × Nat × List Nat))
  | _, _, [] => none
  | result, shift, byte :: rest =>
    if shift = 63 ∧ byte ≠ 0x00 ∧ byte ≠ 0x7f then some (.error .overflow)
    else
      let low_bits := low_bits_of_byte byte
      let result' := result ||| (low_bits <<< shift) % 2 ^ 64
      if byte &&& CONTINUATION_BIT = 0 then some (.ok (result', shift + 7, byte, rest))
      else readSignedLoopBuf result' (shift + 7) rest

/-- `read_signed` for `R: bytes::Buf`. -/
def read_signed_buf (l : List Nat) : Option (Except Error (Int × List Nat)) :=
  (readSignedLoopBuf 0 0 l).map (Except.map readSignedFinish)

/-- The byte sequence emitted by `write_unsigned` from src/write.rs for a
given `u64` value: per iteration, `byte = low_bits_of_u64 val`, `val >>= 7`,
the continuation bit is set when `val != 0`, and the loop stops when
`val == 0`. -/
def writeUnsignedBytes (val : Nat) : List Nat :=
  if val >>> 7 = 0 then [low_bits_of_u64 val]
  else (low_bits_of_u64 val ||| CONTINUATION_BIT) :: writeUnsignedBytes (val >>> 7)
termination_by val
decreasing_by
  simp only [Nat.shiftRight_eq_div_pow] at *
  omega

/-- The byte sequence emitted by `write_signed` from src/write.rs for a given
`i64` value: per iteration, `byte = val as u8`, then `val >>= 6` (arithmetic
shift, i.e. floor division by 64); the loop is done when `val` is now `0` or
`-1`, and the final byte drops the continuation bit (`byte &= !0x80`);
otherwise `val >>= 1` once more and the byte gains the continuation bit. -/
def writeSignedBytes (val : Int) : List Nat :=
  if Int.fdiv val 64 = 0 ∨ Int.fdiv val 64 = -1 then
    [(val % 256).toNat &&& 127]
  else
    ((val % 256).toNat ||| CONTINUATION_BIT) :: writeSignedBytes (Int.fdiv (Int.fdiv val 64) 2)
termination_by val.natAbs
decreasing_by
  simp only [Int.fdiv_eq_ediv _ (by norm_num : (0:Int) ≤ 64),
    Int.fdiv_eq_ediv _ (by norm_num : (0:Int) ≤ 2)] at *
  omega

/-- `write_unsigned` for an unbounded `BufMut` sink (such as `BytesMut`,
whose `put_u8` grows the buffer and never fails): threads the sink and the
`bytes_written` counter exactly as the source loop does. -/
def writeUnsignedLoop (val : Nat) (w : List Nat) (bytes_written : Nat) : Nat × List Nat :=
  if val >>> 7 = 0 then (bytes_written + 1, w ++ [low_bits_of_u64 val])
  else
    writeUnsignedLoop (val >>> 7) (w ++ [low_bits_of_u64 val ||| CONTINUATION_BIT])
      (bytes_written + 1)
termination_by val
decreasing_by
  simp only [Nat.shiftRight_eq_div_pow] at *
  omega

/-- `write_unsigned(&mut w, val)` on an unbounded sink: returns
`Ok(bytes_written)` and the sink contents after the call. -/
def write_unsigned (w : List Nat) (val : Nat) : Nat × List Nat :=
  writeUnsignedLoop val w 0

/-- `write_signed` for an unbounded `BufMut` sink, threading sink and
counter as the source loop does. -/
def writeSignedLoop (val : Int) (w : List Nat) (bytes_written : Nat) : Nat × List Nat :=
  if Int.fdiv val 64 = 0 ∨ Int.fdiv val 64 = -1 then
    (bytes_written + 1, w ++ [(val % 256).toNat &&& 127])
  else
    writeSignedLoop (Int.fdiv (Int.fdiv val 64) 2)
      (w ++ [(val % 256).toNat ||| CONTINUATION_BIT]) (bytes_written + 1)
termination_by val.natAbs
decreasing_by
  simp only [Int.fdiv_eq_ediv _ (by norm_num : (0:Int) ≤ 64),
    Int.fdiv_eq_ediv _ (by norm_num : (0:Int) ≤ 2)] at *
  omega

/-- `write_signed(&mut w, val)` on an unbounded sink. -/
def write_signed (w : List Nat) (val : Int) : Nat × List Nat :=
  writeSignedLoop val w 0

/-- A bounded `BufMut` sink, e.g. `&mut [u8]`: a capacity and the bytes
accepted so far. -/
structure BoundedBuf where
  cap : Nat
  data : List Nat
deriving DecidableEq

/-- `BufMut::put_u8` on a bounded sink: succeeds while within capacity and
asserts (aborts the program) otherwise; `none` models the abort. -/
def BoundedBuf.put_u8 (w : BoundedBuf) (b : Nat) : Option BoundedBuf :=
  if w.data.length < w.cap then some ⟨w.cap, w.data ++ [b]⟩ else none

/-- Outcome of running a writer against a bounded sink. `err` stands for the
`Err` branch of the declared `Result<usize, io::Error>` return type; the
`BufMut`-based code contains no statement that could produce it. `panicked`
records the sink at the moment `put_u8` asserted: already-accepted bytes are
kept. -/
inductive WriteOutcome where
  | ok (bytes_written : Nat) (w : BoundedBuf)
  | err
  | panicked (w : BoundedBuf)
deriving DecidableEq

/-- `write_unsigned` against a bounded `BufMut` sink (src/write.rs lines
46-64 with `put_u8` able to assert). -/
def writeUnsignedBounded (val : Nat) (w : BoundedBuf) (bytes_written : Nat) : WriteOutcome :=
  match w.put_u8 (if val >>> 7 ≠ 0 then low_bits_of_u64 val ||| CONTINUATION_BIT
                  else low_bits_of_u64 val) with
  | none => .panicked w
  | some w' =>
    if val >>> 7 = 0 then .ok (bytes_written + 1) w'
    else writeUnsignedBounded (val >>> 7) w' (bytes_written + 1)
termination_by val
decreasing_by
  simp only [Nat.shiftRight_eq_div_pow] at *
  omega

/-- `write_signed` against a bounded `BufMut` sink (src/write.rs lines
21-44 with `put_u8` able to assert). -/
def writeSignedBounded (val : Int) (w : BoundedBuf) (bytes_written : Nat) : WriteOutcome :=
  match w.put_u8 (if Int.fdiv val 64 = 0 ∨ Int.fdiv val 64 = -1 then (val % 256).toNat &&& 127
                  else (val % 256).toNat ||| CONTINUATION_BIT) with
  | none => .panicked w
  | some w' =>
    if Int.fdiv val 64 = 0 ∨ Int.fdiv val 64 = -1 then .ok (bytes_written + 1) w'
    else writeSignedBounded (Int.fdiv (Int.fdiv val 64) 2) w' (bytes_written + 1)
termination_by val.natAbs
decreasing_by
  simp only [Int.fdiv_eq_ediv _ (by norm_num : (0:Int) ≤ 64),
    Int.fdiv_eq_ediv _ (by norm_num : (0:Int) ≤ 2)] at *
  omega

/-! Bit-level bridges between the machine operations and plain arithmetic. -/

theorem lor_mul_two_pow_eq_add {s a : Nat} (h : a < 2 ^ s) (x : Nat) :
    a ||| x * 2 ^ s = a + x * 2 ^ s := by
  have key := Nat.mul_add_lt_is_or h x
  rw [Nat.lor_comm, Nat.mul_comm, ← key, Nat.add_comm]

theorem and_127_eq_mod (x : Nat) : x &&& 127 = x % 128 := by
  have h := Nat.and_pow_two_sub_one_eq_mod x 7
  norm_num at h
  exact h

theorem and_255_eq_mod (x : Nat) : x &&& 255 = x % 256 := by
  have h := Nat.and_pow_two_sub_one_eq_mod x 8
  norm_num at h
  exact h

theorem and_128_eq_zero_iff (x : Nat) : x &&& 128 = 0 ↔ x % 256 < 128 := by
  have h128 : (128 : Nat) = 2 ^ 7 := by norm_num
  rw [h128, Nat.and_two_pow]
  rcases hb : x.testBit 7 with _ | _
  · simp only [Bool.toNat_false, Nat.zero_mul]
    rw [Nat.testBit_to_div_mod] at hb
    simp only [decide_eq_false_iff_not] at hb
    simp only [pow_succ, pow_zero, one_mul, true_iff]
    omega
  · simp only [Bool.toNat_true, Nat.one_mul]
    rw [Nat.testBit_to_div_mod] at hb
    simp only [decide_eq_true_eq] at hb
    constructor
    · intro h; norm_num at h
    · intro h; omega

theorem sign_bit_and_iff (x : Nat) : 64 &&& x = 64 ↔ x / 64 % 2 = 1 := by
  rw [Nat.and_comm]
  have h64 : (64 : Nat) = 2 ^ 6 := by norm_num
  rw [h64, Nat.and_two_pow]
  rcases hb : x.testBit 6 with _ | _ <;>
    rw [Nat.testBit_to_div_mod] at hb <;> simp at hb <;> norm_num <;> omega

theorem low_bits_of_u64_eq_mod (val : Nat) : low_bits_of_u64 val = val % 128 := by
  rw [low_bits_of_u64, low_bits_of_byte, and_255_eq_mod, and_127_eq_mod,
    Nat.mod_mod_of_dvd _ (by norm_num)]

theorem or_128_and_127 {x : Nat} (h : x < 128) : (x ||| 128) &&& 127 = x := by
  have hx : x ||| 128 = x + 128 := by
    have := lor_mul_two_pow_eq_add (s := 7) (a := x) (by norm_num [h]) 1
    norm_num at this
    exact this
  rw [hx, and_127_eq_mod]
  omega

theorem or_128_cont {x : Nat} (h : x < 128) : (x ||| 128) &&& 128 ≠ 0 := by
  have hx : x ||| 128 = x + 128 := by
    have := lor_mul_two_pow_eq_add (s := 7) (a := x) (by norm_num [h]) 1
    norm_num at this
    exact this
  rw [hx]
  intro hc
  rw [and_128_eq_zero_iff] at hc
  omega

theorem lt_128_cont_clear {x : Nat} (h : x < 128) : x &&& 128 = 0 := by
  rw [and_128_eq_zero_iff]
  omega

theorem and_127_lt (x : Nat) : x &&& 127 < 128 := by
  rw [and_127_eq_mod]
  omega

/-- Little-endian base-128 value of the 7-bit payloads of a byte list. -/
def payloadSum : List Nat → Nat
  | [] => 0
  | b :: bs => (b &&& 127) + 128 * payloadSum bs

theorem payloadSum_lt (bs : List Nat) : payloadSum bs < 2 ^ (7 * bs.length) := by
  induction bs with
  | nil => simp [payloadSum]
  | cons b bs ih =>
    have hb := and_127_lt b
    simp only [payloadSum, List.length_cons]
    have h7 : 2 ^ (7 * (bs.length + 1)) = 2 ^ (7 * bs.length) * 128 := by
      rw [Nat.mul_add, pow_add]; norm_num
    omega

/-- Feeding a run of continuation bytes to the unsigned loop accumulates
their payloads and advances the shift, as long as the shift stays below 63. -/
theorem readUnsignedLoop_chain (bs : List Nat) :
    ∀ result shift rest, (∀ b ∈ bs, b &&& CONTINUATION_BIT ≠ 0) →
    shift + 7 * bs.length ≤ 63 → result < 2 ^ shift →
    readUnsignedLoop result shift (bs ++ rest)
      = readUnsignedLoop (result + payloadSum bs * 2 ^ shift) (shift + 7 * bs.length) rest := by
  induction bs with
  | nil => intro result shift rest _ _ _; simp [payloadSum]
  | cons b bs ih =>
    intro result shift rest hcont hshift hres
    have hb : b &&& CONTINUATION_BIT ≠ 0 := hcont b (List.mem_cons_self b bs)
    have hsh : shift ≤ 56 := by simp only [List.length_cons] at hshift; omega
    have hover : ¬(shift = 63 ∧ b ≠ 0x00 ∧ b ≠ 0x01) := by omega
    have hblt := and_127_lt b
    simp only [List.cons_append, readUnsignedLoop, if_neg hover, if_neg hb,
      low_bits_of_byte, List.append_eq]
    rw [Nat.shiftLeft_eq, lor_mul_two_pow_eq_add hres]
    have h7 : (2:Nat) ^ (shift + 7) = 2 ^ shift * 128 := by rw [pow_add]; norm_num
    have hcont' : ∀ x ∈ bs, x &&& CONTINUATION_BIT ≠ 0 :=
      fun x hx => hcont x (List.mem_cons_of_mem b hx)
    have hshift' : shift + 7 + 7 * bs.length ≤ 63 := by
      simp only [List.length_cons] at hshift; omega
    have hmul : (b &&& 127) * 2 ^ shift ≤ 127 * 2 ^ shift :=
      Nat.mul_le_mul_right _ (by omega)
    have hres' : result + (b &&& 127) * 2 ^ shift < 2 ^ (shift + 7) := by
      rw [h7]; omega
    rw [ih (result + (b &&& 127) * 2 ^ shift) (shift + 7) rest hcont' hshift' hres']
    have harith : result + (b &&& 127) * 2 ^ shift + payloadSum bs * 2 ^ (shift + 7)
        = result + payloadSum (b :: bs) * 2 ^ shift := by
      simp only [payloadSum]
      rw [h7]
      ring
    rw [harith]
    have hlen : shift + 7 + 7 * bs.length = shift + 7 * (b :: bs).length := by
      simp only [List.length_cons]; ring
    rw [hlen]

/-- The signed-loop version of `readUnsignedLoop_chain`; while the shift
stays at or below 56 the `i64` shift cannot wrap. -/
theorem readSignedLoop_chain (bs : List Nat) :
    ∀ result shift rest, (∀ b ∈ bs, b &&& CONTINUATION_BIT ≠ 0) →
    shift + 7 * bs.length ≤ 63 → result < 2 ^ shift →
    readSignedLoop result shift (bs ++ rest)
      = readSignedLoop (result + payloadSum bs * 2 ^ shift) (shift + 7 * bs.length) rest := by
  induction bs with
  | nil => intro result shift rest _ _ _; simp [payloadSum]
  | cons b bs ih =>
    intro result shift rest hcont hshift hres
    have hb : b &&& CONTINUATION_BIT ≠ 0 := hcont b (List.mem_cons_self b bs)
    have hsh : shift ≤ 56 := by simp only [List.length_cons] at hshift; omega
    have hover : ¬(shift = 63 ∧ b ≠ 0x00 ∧ b ≠ 0x7f) := by omega
    have hblt := and_127_lt b
    have hnowrap : (b &&& 127) <<< shift % 2 ^ 64 = (b &&& 127) * 2 ^ shift := by
      rw [Nat.shiftLeft_eq]
      apply Nat.mod_eq_of_lt
      have h1 : (b &&& 127) * 2 ^ shift ≤ 127 * 2 ^ 56 :=
        Nat.mul_le_mul (by omega) (Nat.pow_le_pow_right (by norm_num) hsh)
      have h2 : (127:Nat) * 2 ^ 56 < 2 ^ 64 := by norm_num
      omega
    simp only [List.cons_append, readSignedLoop, if_neg hover, if_neg hb,
      low_bits_of_byte, List.append_eq]
    rw [hnowrap, lor_mul_two_pow_eq_add hres]
    have h7 : (2:Nat) ^ (shift + 7) = 2 ^ shift * 128 := by rw [pow_add]; norm_num
    have hcont' : ∀ x ∈ bs, x &&& CONTINUATION_BIT ≠ 0 :=
      fun x hx => hcont x (List.mem_cons_of_mem b hx)
    have hshift' : shift + 7 + 7 * bs.length ≤ 63 := by
      simp only [List.length_cons] at hshift; omega
    have hmul : (b &&& 127) * 2 ^ shift ≤ 127 * 2 ^ shift :=
      Nat.mul_le_mul_right _ (by omega)
    have hres' : result + (b &&& 127) * 2 ^ shift < 2 ^ (shift + 7) := by
      rw [h7]; omega
    rw [ih (result + (b &&& 127) * 2 ^ shift) (shift + 7) rest hcont' hshift' hres']
    have harith : result + (b &&& 127) * 2 ^ shift + payloadSum bs * 2 ^ (shift + 7)
        = result + payloadSum (b :: bs) * 2 ^ shift := by
      simp only [payloadSum]
      rw [h7]
      ring
    rw [harith]
    have hlen : shift + 7 + 7 * bs.length = shift + 7 * (b :: bs).length := by
      simp only [List.length_cons]; ring
    rw [hlen]

/-! Facts about the unsigned writer. -/

theorem writeUnsignedBytes_length_pos (v : Nat) : 1 ≤ (writeUnsignedBytes v).length := by
  rw [writeUnsignedBytes]
  split <;> simp

theorem writeUnsignedBytes_length_le (v : Nat) :
    ∀ c, 1 ≤ c → v < 2 ^ (7 * c) → (writeUnsignedBytes v).length ≤ c := by
  induction v using writeUnsignedBytes.induct with
  | case1 v h =>
    intro c hc _
    rw [writeUnsignedBytes, if_pos h]
    simpa using hc
  | case2 v h ih =>
    intro c hc hv
    rw [writeUnsignedBytes, if_neg h]
    have hv128 : 128 ≤ v := by
      rw [Nat.shiftRight_eq_div_pow] at h
      norm_num at h
      omega
    have hc2 : 2 ≤ c := by
      rcases Nat.lt_or_ge c 2 with hlt | hge
      · have hc1 : c = 1 := by omega
        subst hc1
        norm_num at hv
        omega
      · exact hge
    have hsplit : (2:Nat) ^ (7 * c) = 2 ^ (7 * (c - 1)) * 128 := by
      have : 7 * c = 7 * (c - 1) + 7 := by omega
      rw [this, pow_add]
      norm_num
    have hv' : v >>> 7 < 2 ^ (7 * (c - 1)) := by
      rw [Nat.shiftRight_eq_div_pow]
      norm_num
      rw [Nat.div_lt_iff_lt_mul (by norm_num : (0:Nat) < 128)]
      omega
    have := ih (c - 1) (by omega) hv'
    simp only [List.length_cons]
    omega

theorem writeUnsignedLoop_eq (val : Nat) : ∀ w bytes_written,
    writeUnsignedLoop val w bytes_written
      = (bytes_written + (writeUnsignedBytes val).length, w ++ writeUnsignedBytes val) := by
  induction val using writeUnsignedBytes.induct with
  | case1 v h =>
    intro w c
    rw [writeUnsignedLoop, if_pos h, writeUnsignedBytes, if_pos h]
    simp
  | case2 v h ih =>
    intro w c
    rw [writeUnsignedLoop, if_neg h, writeUnsignedBytes, if_neg h, ih]
    simp only [List.length_cons, List.append_assoc, List.singleton_append, Prod.mk.injEq]
    exact ⟨by omega, trivial⟩

/-- Core unsigned round trip: reading the bytes written for `v` from any
loop state with a matching invariant consumes exactly those bytes and adds
`v * 2 ^ shift` to the accumulator. -/
theorem readUnsignedLoop_write (v : Nat) : ∀ result shift rest,
    shift ≤ 63 → v < 2 ^ (64 - shift) → result < 2 ^ shift →
    readUnsignedLoop result shift (writeUnsignedBytes v ++ rest)
      = .ok (result + v * 2 ^ shift, rest) := by
  induction v using writeUnsignedBytes.induct with
  | case1 v h =>
    intro result shift rest hs hv hres
    have hv128 : v < 128 := by
      rw [Nat.shiftRight_eq_div_pow] at h
      norm_num at h
      omega
    rw [writeUnsignedBytes, if_pos h]
    have hlow : low_bits_of_u64 v = v := by rw [low_bits_of_u64_eq_mod]; omega
    have hover : ¬(shift = 63 ∧ v ≠ 0x00 ∧ v ≠ 0x01) := by
      rintro ⟨rfl, h0, h1⟩
      norm_num at hv
      omega
    have hlb : low_bits_of_byte v = v := by rw [low_bits_of_byte, and_127_eq_mod]; omega
    have hterm : v &&& 128 = 0 := lt_128_cont_clear hv128
    simp only [List.singleton_append, readUnsignedLoop, CONTINUATION_BIT, hlow,
      if_neg hover, hlb, if_pos hterm]
    rw [Nat.shiftLeft_eq, lor_mul_two_pow_eq_add hres]
    rfl
  | case2 v h ih =>
    intro result shift rest hs hv hres
    have hv128 : 128 ≤ v := by
      rw [Nat.shiftRight_eq_div_pow] at h
      norm_num at h
      omega
    have hs56 : shift ≤ 56 := by
      by_contra hgt
      have h8 : 64 - shift ≤ 7 := by omega
      have : (2:Nat) ^ (64 - shift) ≤ 2 ^ 7 :=
        Nat.pow_le_pow_right (by norm_num) h8
      norm_num at this
      omega
    rw [writeUnsignedBytes, if_neg h]
    have hlow : low_bits_of_u64 v = v % 128 := low_bits_of_u64_eq_mod v
    have hover : ¬(shift = 63 ∧ (v % 128 ||| 128) ≠ 0x00 ∧ (v % 128 ||| 128) ≠ 0x01) := by
      omega
    have hlb : low_bits_of_byte (v % 128 ||| 128) = v % 128 := by
      rw [low_bits_of_byte]
      exact or_128_and_127 (by omega)
    have hco : ¬((v % 128 ||| 128) &&& 128 = 0) := or_128_cont (by omega)
    simp only [List.cons_append, readUnsignedLoop, CONTINUATION_BIT, hlow,
      if_neg hover, hlb, if_neg hco, List.append_eq]
    rw [Nat.shiftLeft_eq, lor_mul_two_pow_eq_add hres]
    have h7 : (2:Nat) ^ (shift + 7) = 2 ^ shift * 128 := by rw [pow_add]; norm_num
    have hmul : v % 128 * 2 ^ shift ≤ 127 * 2 ^ shift :=
      Nat.mul_le_mul_right _ (by omega)
    have hres' : result + v % 128 * 2 ^ shift < 2 ^ (shift + 7) := by rw [h7]; omega
    have hv' : v >>> 7 < 2 ^ (64 - (shift + 7)) := by
      rw [Nat.shiftRight_eq_div_pow]
      norm_num
      rw [Nat.div_lt_iff_lt_mul (by norm_num : (0:Nat) < 128)]
      have hsplit : (2:Nat) ^ (64 - shift) = 2 ^ (64 - (shift + 7)) * 128 := by
        have : 64 - shift = 64 - (shift + 7) + 7 := by omega
        rw [this, pow_add]
        norm_num
      omega
    rw [ih (result + v % 128 * 2 ^ shift) (shift + 7) rest (by omega) hv' hres']
    have hsplitv : v = 128 * (v >>> 7) + v % 128 := by
      rw [Nat.shiftRight_eq_div_pow]
      norm_num
      omega
    have key : result + v % 128 * 2 ^ shift + v >>> 7 * 2 ^ (shift + 7)
        = result + v * 2 ^ shift := by
      rw [h7]
      conv_rhs => rw [hsplitv]
      ring
    rw [key]

/-! Bridges for the signed codec. -/

theorem testBit_127 (i : Nat) : (127 : Nat).testBit i = decide (i < 7) := by
  rcases Nat.lt_or_ge i 7 with h | h
  · interval_cases i <;> decide
  · have h0 : (127 : Nat) < 2 ^ i :=
      Nat.lt_of_lt_of_le (by norm_num) (Nat.pow_le_pow_right (by norm_num) h)
    rw [Nat.testBit_to_div_mod, Nat.div_eq_of_lt h0]
    simp
    omega

theorem testBit_128 (i : Nat) : (128 : Nat).testBit i = decide (i = 7) := by
  rcases Nat.lt_or_ge i 8 with h | h
  · interval_cases i <;> decide
  · have h0 : (128 : Nat) < 2 ^ i :=
      Nat.lt_of_lt_of_le (by norm_num) (Nat.pow_le_pow_right (by norm_num) h)
    rw [Nat.testBit_to_div_mod, Nat.div_eq_of_lt h0]
    simp
    omega

theorem or_128_and_127_gen (x : Nat) : (x ||| 128) &&& 127 = x &&& 127 := by
  apply Nat.eq_of_testBit_eq
  intro i
  rw [Nat.testBit_and, Nat.testBit_and, Nat.testBit_lor, testBit_127, testBit_128]
  rcases Nat.lt_or_ge i 7 with h | h
  · simp [h, Nat.ne_of_lt h]
  · simp [Nat.not_lt.mpr h]

theorem or_128_cont_gen (x : Nat) : (x ||| 128) &&& 128 ≠ 0 := by
  have h128 : (128 : Nat) = 2 ^ 7 := by norm_num
  rw [h128, Nat.and_two_pow, Nat.testBit_lor]
  have : (128 : Nat).testBit 7 = true := by decide
  rw [h128] at this
  rw [this, Bool.or_true]
  norm_num

/-- Termination test of the signed writer: after `val >>= 6` the value is `0`
or `-1` exactly when the value fits in seven signed bits. -/
theorem signed_done_iff (v : Int) :
    (Int.fdiv v 64 = 0 ∨ Int.fdiv v 64 = -1) ↔ (-64 ≤ v ∧ v < 64) := by
  rw [Int.fdiv_eq_ediv _ (by norm_num : (0:Int) ≤ 64)]
  omega

theorem fdiv_fdiv_128 (v : Int) : Int.fdiv (Int.fdiv v 64) 2 = v / 128 := by
  rw [Int.fdiv_eq_ediv _ (by norm_num : (0:Int) ≤ 64),
    Int.fdiv_eq_ediv _ (by norm_num : (0:Int) ≤ 2)]
  omega

/-- The 7-bit payload of `val as u8` is the non-negative residue of `val`
modulo 128. -/
theorem byte_and_127 (v : Int) : (v % 256).toNat &&& 127 = (v % 128).toNat := by
  rw [and_127_eq_mod]
  omega

theorem byte_mod_128_lt (v : Int) : (v % 128).toNat < 128 := by omega

/-! Facts about the signed writer. -/

theorem writeSignedBytes_length_pos (v : Int) : 1 ≤ (writeSignedBytes v).length := by
  rw [writeSignedBytes]
  split <;> simp

theorem writeSignedBytes_length_le (v : Int) :
    ∀ c, 1 ≤ c → -(2 ^ (7 * c - 1) : Int) ≤ v → v < 2 ^ (7 * c - 1) →
    (writeSignedBytes v).length ≤ c := by
  induction v using writeSignedBytes.induct with
  | case1 v h =>
    intro c hc _ _
    rw [writeSignedBytes, if_pos h]
    simpa using hc
  | case2 v h ih =>
    intro c hc hlo hhi
    rw [writeSignedBytes, if_neg h]
    rw [signed_done_iff] at h
    have hc2 : 2 ≤ c := by
      by_contra hlt
      have hc1 : c = 1 := by omega
      subst hc1
      norm_num at hlo hhi
      omega
    rw [fdiv_fdiv_128] at ih ⊢
    have hsplit : (2 : Int) ^ (7 * c - 1) = 2 ^ (7 * (c - 1) - 1) * 128 := by
      have h7 : 7 * c - 1 = 7 * (c - 1) - 1 + 7 := by omega
      rw [h7, pow_add]
      norm_num
    have hT : (0 : Int) < 2 ^ (7 * (c - 1) - 1) := by positivity
    have hlo' : -(2 ^ (7 * (c - 1) - 1) : Int) ≤ v / 128 := by omega
    have hhi' : v / 128 < 2 ^ (7 * (c - 1) - 1) := by omega
    have := ih (c - 1) (by omega) hlo' hhi'
    simp only [List.length_cons]
    omega

theorem writeSignedLoop_eq (val : Int) : ∀ w bytes_written,
    writeSignedLoop val w bytes_written
      = (bytes_written + (writeSignedBytes val).length, w ++ writeSignedBytes val) := by
  induction val using writeSignedBytes.induct with
  | case1 v h =>
    intro w c
    rw [writeSignedLoop, if_pos h, writeSignedBytes, if_pos h]
    simp
  | case2 v h ih =>
    intro w c
    rw [writeSignedLoop, if_neg h, writeSignedBytes, if_neg h, ih]
    simp only [List.length_cons, List.append_assoc, List.singleton_append, Prod.mk.injEq]
    exact ⟨by omega, trivial⟩

/-- `toInt64` applied to a pattern agreeing with `x` modulo `2 ^ 64`. -/
theorem toInt64_arg (n : Nat) (x : Int) (hn : n < 2 ^ 64) (h : (n : Int) = x % 2 ^ 64) :
    toInt64 n = toInt64 ((x % 2 ^ 64).toNat) := by
  have h2 : (x % 2 ^ 64).toNat = n := by omega
  rw [h2]

/-- Core signed round trip: reading the bytes written for `v` from a loop
state with a matching invariant yields the two's-complement reinterpretation
of `result + v * 2 ^ shift`. -/
theorem readSignedLoop_write (v : Int) : ∀ result shift rest,
    shift ≤ 63 → shift % 7 = 0 →
    -(2 ^ (63 - shift) : Int) ≤ v → v < 2 ^ (63 - shift) →
    result < 2 ^ shift →
    (readSignedLoop result shift (writeSignedBytes v ++ rest)).map readSignedFinish
      = .ok (toInt64 (((result : Int) + v * 2 ^ shift) % 2 ^ 64).toNat, rest) := by
  induction v using writeSignedBytes.induct with
  | case1 v h =>
    intro result shift rest hs hs7 hlo hhi hres
    have hd := h
    rw [signed_done_iff] at hd
    rw [writeSignedBytes, if_pos h, byte_and_127]
    have hflt : (v % 128).toNat < 128 := byte_mod_128_lt v
    have hover : ¬(shift = 63 ∧ (v % 128).toNat ≠ 0x00 ∧ (v % 128).toNat ≠ 0x7f) := by
      rintro ⟨rfl, h0, h1⟩
      norm_num at hlo hhi
      omega
    have hlb : low_bits_of_byte (v % 128).toNat = (v % 128).toNat := by
      rw [low_bits_of_byte, and_127_eq_mod]
      omega
    have hterm : (v % 128).toNat &&& 128 = 0 := lt_128_cont_clear hflt
    simp only [List.singleton_append, readSignedLoop, CONTINUATION_BIT, hlb,
      if_neg hover, if_pos hterm, Except.map]
    rcases (by omega : shift ≤ 56 ∨ shift = 63) with hs56 | hs63
    · have hnowrap : (v % 128).toNat <<< shift % 2 ^ 64 = (v % 128).toNat * 2 ^ shift := by
        rw [Nat.shiftLeft_eq]
        apply Nat.mod_eq_of_lt
        have h1 : (v % 128).toNat * 2 ^ shift ≤ 127 * 2 ^ 56 :=
          Nat.mul_le_mul (by omega) (Nat.pow_le_pow_right (by norm_num) hs56)
        have h2 : (127:Nat) * 2 ^ 56 < 2 ^ 64 := by norm_num
        omega
      rw [hnowrap, lor_mul_two_pow_eq_add hres]
      simp only [readSignedFinish, SIGN_BIT]
      have hSle : (2:Nat) ^ shift ≤ 2 ^ 56 := Nat.pow_le_pow_right (by norm_num) hs56
      have hbound : result + (v % 128).toNat * 2 ^ shift < 2 ^ 64 := by
        have h1 : (v % 128).toNat * 2 ^ shift ≤ 127 * 2 ^ 56 :=
          Nat.mul_le_mul (by omega) hSle
        have h2 : (127:Nat) * 2 ^ 56 < 2 ^ 63 := by norm_num
        have h3 : (2:Nat) ^ shift ≤ 2 ^ 63 := le_trans hSle (by norm_num)
        omega
      rcases Int.le_or_lt 0 v with hpos | hneg
      · -- non-negative tail
        have hfv : ((v % 128).toNat : Int) = v := by omega
        have hsign : ¬(64 &&& (v % 128).toNat = 64) := by
          rw [sign_bit_and_iff]
          omega
        rw [if_neg (by tauto : ¬(shift + 7 < 64 ∧ 64 &&& (v % 128).toNat = 64))]
        have hc : ((result + (v % 128).toNat * 2 ^ shift : Nat) : Int)
            = (result : Int) + v * 2 ^ shift := by
          rw [Nat.cast_add, Nat.cast_mul, hfv]
          push_cast
          ring
        have hmod : ((result + (v % 128).toNat * 2 ^ shift : Nat) : Int)
            = ((result : Int) + v * 2 ^ shift) % 2 ^ 64 := by
          have hcastb : (result : Int) + v * 2 ^ shift < 2 ^ 64 := by
            rw [← hc]
            exact_mod_cast hbound
          have h0 : (0:Int) ≤ (result : Int) + v * 2 ^ shift := by
            rw [← hc]
            positivity
          rw [hc, Int.emod_eq_of_lt h0 hcastb]
        rw [toInt64_arg _ ((result : Int) + v * 2 ^ shift) hbound hmod]
        rfl
      · -- negative tail
        have hfv : ((v % 128).toNat : Int) = v + 128 := by omega
        have hsign : 64 &&& (v % 128).toNat = 64 := by
          rw [sign_bit_and_iff]
          omega
        rw [if_pos ⟨by omega, hsign⟩]
        have hmask : ((2 ^ 64 - 1) <<< (shift + 7)) % 2 ^ 64 = 2 ^ 64 - 2 ^ (shift + 7) := by
          rw [Nat.shiftLeft_eq]
          have hT : (2:Nat) ^ (shift + 7) ≤ 2 ^ 63 :=
            Nat.pow_le_pow_right (by norm_num) (by omega)
          have hT1 : (1:Nat) ≤ 2 ^ (shift + 7) := Nat.one_le_two_pow
          have h263 : (2:Nat) ^ 63 ≤ 2 ^ 64 := by norm_num
          omega
        have hmul : (v % 128).toNat * 2 ^ shift ≤ 127 * 2 ^ shift :=
          Nat.mul_le_mul_right _ (by omega)
        have h7 : (2:Nat) ^ (shift + 7) = 2 ^ shift * 128 := by rw [pow_add]; norm_num
        have hlt7 : result + (v % 128).toNat * 2 ^ shift < 2 ^ (shift + 7) := by
          rw [h7]; omega
        have hOR : (result + (v % 128).toNat * 2 ^ shift) ||| (2 ^ 64 - 2 ^ (shift + 7))
            = result + (v % 128).toNat * 2 ^ shift + (2 ^ 64 - 2 ^ (shift + 7)) := by
          have hx : (2:Nat) ^ 64 - 2 ^ (shift + 7) = (2 ^ (57 - shift) - 1) * 2 ^ (shift + 7) := by
            rw [Nat.sub_mul, one_mul, ← pow_add]
            congr 2
            omega
          rw [hx]
          exact lor_mul_two_pow_eq_add hlt7 _
        rw [hmask, hOR]
        have hTle : (2:Nat) ^ (shift + 7) ≤ 2 ^ 63 :=
          Nat.pow_le_pow_right (by norm_num) (by omega)
        have hle64 : (2:Nat) ^ (shift + 7) ≤ 2 ^ 64 := le_trans hTle (by norm_num)
        have hbound2 : result + (v % 128).toNat * 2 ^ shift + (2 ^ 64 - 2 ^ (shift + 7))
            < 2 ^ 64 := by omega
        have hT7 : ((2 ^ (shift + 7) : Nat) : Int) = 128 * (2:Int) ^ shift := by
          push_cast
          rw [pow_add]
          ring
        have hcast : ((result + (v % 128).toNat * 2 ^ shift + (2 ^ 64 - 2 ^ (shift + 7)) : Nat) : Int)
            = (result : Int) + v * 2 ^ shift + 2 ^ 64 := by
          rw [Nat.cast_add, Nat.cast_add, Nat.cast_mul, Nat.cast_sub hle64, hfv, hT7]
          push_cast
          ring
        have hSpos : (0:Int) < (2:Int) ^ shift := pow_pos (by norm_num) shift
        have hvlo : (-64) * (2:Int) ^ shift ≤ v * 2 ^ shift :=
          mul_le_mul_of_nonneg_right (by omega) (le_of_lt hSpos)
        have hvhi : v * (2:Int) ^ shift ≤ (-1) * 2 ^ shift :=
          mul_le_mul_of_nonneg_right (by omega) (le_of_lt hSpos)
        have hSI56 : (2:Int) ^ shift ≤ 2 ^ 56 := by exact_mod_cast hSle
        have hresI : (result : Int) < 2 ^ shift := by exact_mod_cast hres
        have hmod : ((result + (v % 128).toNat * 2 ^ shift + (2 ^ 64 - 2 ^ (shift + 7)) : Nat) : Int)
            = ((result : Int) + v * 2 ^ shift) % 2 ^ 64 := by
          rw [hcast]
          generalize hw : v * (2:Int) ^ shift = w at hvlo hvhi ⊢
          generalize hSg : (2:Int) ^ shift = S at hvlo hvhi hSI56 hresI hSpos ⊢
          omega
        rw [toInt64_arg _ ((result : Int) + v * 2 ^ shift) hbound2 hmod]
        rfl
    · -- shift = 63
      subst hs63
      norm_num at hlo hhi
      have hv01 : v = 0 ∨ v = -1 := by omega
      rcases hv01 with rfl | rfl
      · simp only [readSignedFinish]
        have hz : ((0:Int) % 128).toNat = 0 := by decide
        rw [hz, Nat.zero_shiftLeft, Nat.zero_mod, Nat.or_zero]
        rw [if_neg (by omega : ¬(63 + 7 < 64 ∧ SIGN_BIT &&& 0 = SIGN_BIT))]
        have hmod : ((result : Nat) : Int) = ((result : Int) + 0 * 2 ^ 63) % 2 ^ 64 := by
          norm_num
          omega
        rw [toInt64_arg _ ((result : Int) + 0 * 2 ^ 63) (by omega) hmod]
        rfl
      · simp only [readSignedFinish]
        have hz : ((-1:Int) % 128).toNat = 127 := by decide
        rw [hz]
        have hsh : (127 : Nat) <<< 63 % 2 ^ 64 = 2 ^ 63 := by norm_num [Nat.shiftLeft_eq]
        rw [hsh]
        have hOR : result ||| 2 ^ 63 = result + 2 ^ 63 := by
          have := lor_mul_two_pow_eq_add (s := 63) hres 1
          norm_num at this
          exact this
        rw [hOR]
        rw [if_neg (by omega : ¬(63 + 7 < 64 ∧ SIGN_BIT &&& 127 = SIGN_BIT))]
        have hmod : ((result + 2 ^ 63 : Nat) : Int)
            = ((result : Int) + (-1) * 2 ^ 63) % 2 ^ 64 := by
          push_cast
          omega
        rw [toInt64_arg _ ((result : Int) + (-1) * 2 ^ 63) (by omega) hmod]
        rfl
  | case2 v h ih =>
    intro result shift rest hs hs7 hlo hhi hres
    have hnd := h
    rw [signed_done_iff] at hnd
    have hs56 : shift ≤ 56 := by
      by_contra hgt
      have hTle : (2:Int) ^ (63 - shift) ≤ 2 ^ 6 :=
        pow_le_pow_right₀ (by norm_num) (by omega)
      have h26 : (2:Int) ^ 6 = 64 := by norm_num
      omega
    rw [writeSignedBytes, if_neg h]
    have hover : ¬(shift = 63 ∧ ((v % 256).toNat ||| 128) ≠ 0x00 ∧ ((v % 256).toNat ||| 128) ≠ 0x7f) := by
      omega
    have hlb : low_bits_of_byte ((v % 256).toNat ||| 128) = (v % 128).toNat := by
      rw [low_bits_of_byte, or_128_and_127_gen, byte_and_127]
    have hcont : ¬(((v % 256).toNat ||| 128) &&& 128 = 0) := or_128_cont_gen _
    simp only [List.cons_append, readSignedLoop, CONTINUATION_BIT, if_neg hover, hlb,
      if_neg hcont, List.append_eq]
    have hflt : (v % 128).toNat < 128 := byte_mod_128_lt v
    have hnowrap : (v % 128).toNat <<< shift % 2 ^ 64 = (v % 128).toNat * 2 ^ shift := by
      rw [Nat.shiftLeft_eq]
      apply Nat.mod_eq_of_lt
      have h1 : (v % 128).toNat * 2 ^ shift ≤ 127 * 2 ^ 56 :=
        Nat.mul_le_mul (by omega) (Nat.pow_le_pow_right (by norm_num) hs56)
      have h2 : (127:Nat) * 2 ^ 56 < 2 ^ 64 := by norm_num
      omega
    rw [hnowrap, lor_mul_two_pow_eq_add hres]
    rw [fdiv_fdiv_128] at ih ⊢
    have h7 : (2:Nat) ^ (shift + 7) = 2 ^ shift * 128 := by rw [pow_add]; norm_num
    have hmul : (v % 128).toNat * 2 ^ shift ≤ 127 * 2 ^ shift :=
      Nat.mul_le_mul_right _ (by omega)
    have hres' : result + (v % 128).toNat * 2 ^ shift < 2 ^ (shift + 7) := by
      rw [h7]; omega
    have hsplitI : (2:Int) ^ (63 - shift) = 2 ^ (63 - (shift + 7)) * 128 := by
      have he : 63 - shift = 63 - (shift + 7) + 7 := by omega
      rw [he, pow_add]
      norm_num
    have hTpos : (0:Int) < 2 ^ (63 - (shift + 7)) := by positivity
    have hlo' : -(2 ^ (63 - (shift + 7)) : Int) ≤ v / 128 := by omega
    have hhi' : v / 128 < (2 ^ (63 - (shift + 7)) : Int) := by omega
    rw [ih (result + (v % 128).toNat * 2 ^ shift) (shift + 7) rest (by omega) (by omega)
      hlo' hhi' hres']
    have hexp : ((result + (v % 128).toNat * 2 ^ shift : Nat) : Int)
        + v / 128 * (2:Int) ^ (shift + 7) = (result : Int) + v * 2 ^ shift := by
      push_cast
      have hp : ((v % 128).toNat : Int) = v % 128 := by omega
      rw [hp]
      have hv128 : v = 128 * (v / 128) + v % 128 := by omega
      have h7I : (2:Int) ^ (shift + 7) = 2 ^ shift * 128 := by rw [pow_add]; norm_num
      rw [h7I]
      linear_combination (-(2:Int) ^ shift) * hv128
    rw [hexp]

/-! Bounds on what a successful decode can consume and produce. -/

theorem toInt64_range (n : Nat) (h : n < 2 ^ 64) :
    -(2 ^ 63 : Int) ≤ toInt64 n ∧ toInt64 n < 2 ^ 63 := by
  rw [toInt64]
  split <;> omega

theorem toInt64_emod_self (v : Int) (h1 : -(2 ^ 63 : Int) ≤ v) (h2 : v < 2 ^ 63) :
    toInt64 ((v % 2 ^ 64).toNat) = v := by
  rw [toInt64]
  split <;> omega

/-- A successful run of the unsigned loop consumes between 1 and `10 - k`
bytes and produces a value below `2 ^ (7 * (k + consumed))`. -/
theorem readUnsignedLoop_consumed (l : List Nat) : ∀ result k v rest,
    k ≤ 9 → result < 2 ^ (7 * k) →
    readUnsignedLoop result (7 * k) l = .ok (v, rest) →
    ∃ pre, l = pre ++ rest ∧ 1 ≤ pre.length ∧ k + pre.length ≤ 10 ∧
      v < 2 ^ (7 * (k + pre.length)) := by
  induction l with
  | nil =>
    intro result k v rest _ _ hrun
    simp [readUnsignedLoop] at hrun
  | cons b l ih =>
    intro result k v rest hk hres hrun
    rw [readUnsignedLoop] at hrun
    by_cases hover : 7 * k = 63 ∧ b ≠ 0x00 ∧ b ≠ 0x01
    · rw [if_pos hover] at hrun
      simp at hrun
    · rw [if_neg hover] at hrun
      simp only [low_bits_of_byte] at hrun
      have hblt := and_127_lt b
      have h7 : (2:Nat) ^ (7 * (k + 1)) = 2 ^ (7 * k) * 128 := by
        have he : 7 * (k + 1) = 7 * k + 7 := by ring
        rw [he, pow_add]
        norm_num
      have hmul : (b &&& 127) * 2 ^ (7 * k) ≤ 127 * 2 ^ (7 * k) :=
        Nat.mul_le_mul_right _ (by omega)
      by_cases hterm : b &&& CONTINUATION_BIT = 0
      · rw [if_pos hterm] at hrun
        rw [Except.ok.injEq, Prod.mk.injEq] at hrun
        obtain ⟨hv, hrest⟩ := hrun
        refine ⟨[b], by simp [hrest], by simp, by simp; omega, ?_⟩
        rw [← hv, Nat.shiftLeft_eq, lor_mul_two_pow_eq_add hres]
        simp only [List.length_cons, List.length_nil, Nat.zero_add]
        omega
      · rw [if_neg hterm] at hrun
        rcases Nat.lt_or_ge k 9 with hk8 | hk9
        · have hres' : result ||| (b &&& 127) <<< (7 * k) < 2 ^ (7 * (k + 1)) := by
            rw [Nat.shiftLeft_eq, lor_mul_two_pow_eq_add hres]
            omega
          have he : 7 * k + 7 = 7 * (k + 1) := by ring
          rw [he] at hrun
          obtain ⟨pre, hpre, hlen1, hlen10, hvb⟩ :=
            ih _ (k + 1) v rest (by omega) hres' hrun
          refine ⟨b :: pre, by simp [hpre], by simp, ?_, ?_⟩
          · simp only [List.length_cons]
            omega
          · have he2 : 7 * (k + 1 + pre.length) = 7 * (k + (b :: pre).length) := by
              simp only [List.length_cons]
              ring
            rw [← he2]
            exact hvb
        · exfalso
          have hk9' : k = 9 := by omega
          subst hk9'
          have hb01 : b = 0 ∨ b = 1 := by
            rcases eq_or_ne b 0 with rfl | hb0
            · left; rfl
            · rcases eq_or_ne b 1 with rfl | hb1
              · right; rfl
              · exact absurd (by norm_num : 7 * 9 = 63) (fun hx => hover ⟨hx, hb0, hb1⟩)
          rcases hb01 with rfl | rfl <;> exact hterm (by decide)

theorem mask_shift_mod (s : Nat) (hs : s ≤ 64) :
    ((2 ^ 64 - 1) <<< s) % 2 ^ 64 = 2 ^ 64 - 2 ^ s := by
  rw [Nat.shiftLeft_eq]
  have hT : (2:Nat) ^ s ≤ 2 ^ 64 := Nat.pow_le_pow_right (by norm_num) hs
  have hT1 : (1:Nat) ≤ 2 ^ s := Nat.one_le_two_pow
  omega

theorem or_mask_eq_add {R s : Nat} (hR : R < 2 ^ s) (hs : s ≤ 64) :
    R ||| (2 ^ 64 - 2 ^ s) = R + (2 ^ 64 - 2 ^ s) := by
  have hx : (2:Nat) ^ 64 - 2 ^ s = (2 ^ (64 - s) - 1) * 2 ^ s := by
    rw [Nat.sub_mul, one_mul, ← pow_add]
    congr 2
    omega
  rw [hx]
  exact lor_mul_two_pow_eq_add hR _

/-- A successful run of the signed loop consumes between 1 and `10 - k`
bytes; the final shift is seven times the bytes seen, and (within nine
bytes) the accumulated pattern sits in the half determined by the sign bit
of the last byte. -/
theorem readSignedLoop_consumed (l : List Nat) : ∀ result k R S B rest,
    k ≤ 9 → result < 2 ^ (7 * k) →
    readSignedLoop result (7 * k) l = .ok (R, S, B, rest) →
    ∃ pre, l = pre ++ rest ∧ 1 ≤ pre.length ∧ k + pre.length ≤ 10 ∧
      S = 7 * (k + pre.length) ∧ R < 2 ^ 64 ∧
      (k + pre.length ≤ 9 →
        R < 2 ^ (7 * (k + pre.length)) ∧
        (64 &&& B = 64 → 2 ^ (7 * (k + pre.length) - 1) ≤ R) ∧
        (¬64 &&& B = 64 → R < 2 ^ (7 * (k + pre.length) - 1))) := by
  induction l with
  | nil =>
    intro result k R S B rest _ _ hrun
    simp [readSignedLoop] at hrun
  | cons b l ih =>
    intro result k R S B rest hk hres hrun
    rw [readSignedLoop] at hrun
    by_cases hover : 7 * k = 63 ∧ b ≠ 0x00 ∧ b ≠ 0x7f
    · rw [if_pos hover] at hrun
      simp at hrun
    · rw [if_neg hover] at hrun
      simp only [low_bits_of_byte] at hrun
      have hblt := and_127_lt b
      have h7 : (2:Nat) ^ (7 * (k + 1)) = 2 ^ (7 * k) * 128 := by
        have he : 7 * (k + 1) = 7 * k + 7 := by ring
        rw [he, pow_add]
        norm_num
      have h6 : (2:Nat) ^ (7 * (k + 1) - 1) = 2 ^ (7 * k) * 64 := by
        have he : 7 * (k + 1) - 1 = 7 * k + 6 := by omega
        rw [he, pow_add]
        norm_num
      have hb127 : b &&& 127 = b % 128 := and_127_eq_mod b
      have hsgn : 64 &&& b = 64 ↔ b / 64 % 2 = 1 := sign_bit_and_iff b
      have hk63 : (2:Nat) ^ (7 * k) ≤ 2 ^ 63 :=
        Nat.pow_le_pow_right (by norm_num) (by omega)
      by_cases hterm : b &&& CONTINUATION_BIT = 0
      · rw [if_pos hterm] at hrun
        rw [Except.ok.injEq, Prod.mk.injEq, Prod.mk.injEq, Prod.mk.injEq] at hrun
        obtain ⟨hR, hS, hB, hrest⟩ := hrun
        refine ⟨[b], by simp [hrest], by simp, by simp; omega, by
          simp only [List.length_cons, List.length_nil, Nat.zero_add]
          omega, ?_, ?_⟩
        · rw [← hR]
          have h1 : result < 2 ^ 64 := by omega
          have h2 : (b &&& 127) <<< (7 * k) % 2 ^ 64 < 2 ^ 64 :=
            Nat.mod_lt _ (by positivity)
          exact Nat.or_lt_two_pow h1 h2
        · simp only [List.length_cons, List.length_nil, Nat.zero_add]
          intro ht
          have hk8 : k ≤ 8 := by omega
          have hnowrap : (b &&& 127) <<< (7 * k) % 2 ^ 64 = (b &&& 127) * 2 ^ (7 * k) := by
            rw [Nat.shiftLeft_eq]
            apply Nat.mod_eq_of_lt
            have h1 : (b &&& 127) * 2 ^ (7 * k) ≤ 127 * 2 ^ 56 :=
              Nat.mul_le_mul (by omega) (Nat.pow_le_pow_right (by norm_num) (by omega))
            have h2 : (127:Nat) * 2 ^ 56 < 2 ^ 64 := by norm_num
            omega
          rw [← hR, hnowrap, lor_mul_two_pow_eq_add hres]
          have hmul : (b &&& 127) * 2 ^ (7 * k) ≤ 127 * 2 ^ (7 * k) :=
            Nat.mul_le_mul_right _ (by omega)
          subst hB
          refine ⟨by omega, fun hbit => ?_, fun hbit => ?_⟩
          · have hge : 64 ≤ b &&& 127 := by
              rw [hb127]
              rw [hsgn] at hbit
              omega
            have hmul_lo : 64 * 2 ^ (7 * k) ≤ (b &&& 127) * 2 ^ (7 * k) :=
              Nat.mul_le_mul_right _ hge
            omega
          · have hlt : b &&& 127 < 64 := by
              rw [hb127]
              rw [hsgn] at hbit
              omega
            have hmul_hi : (b &&& 127) * 2 ^ (7 * k) ≤ 63 * 2 ^ (7 * k) :=
              Nat.mul_le_mul_right _ (by omega)
            omega
      · rw [if_neg hterm] at hrun
        rcases Nat.lt_or_ge k 9 with hk8 | hk9
        · have hnowrap : (b &&& 127) <<< (7 * k) % 2 ^ 64 = (b &&& 127) * 2 ^ (7 * k) := by
            rw [Nat.shiftLeft_eq]
            apply Nat.mod_eq_of_lt
            have h1 : (b &&& 127) * 2 ^ (7 * k) ≤ 127 * 2 ^ 56 :=
              Nat.mul_le_mul (by omega) (Nat.pow_le_pow_right (by norm_num) (by omega))
            have h2 : (127:Nat) * 2 ^ 56 < 2 ^ 64 := by norm_num
            omega
          have hmul : (b &&& 127) * 2 ^ (7 * k) ≤ 127 * 2 ^ (7 * k) :=
            Nat.mul_le_mul_right _ (by omega)
          have hres' : result ||| (b &&& 127) <<< (7 * k) % 2 ^ 64 < 2 ^ (7 * (k + 1)) := by
            rw [hnowrap, lor_mul_two_pow_eq_add hres]
            omega
          have he : 7 * k + 7 = 7 * (k + 1) := by ring
          rw [he] at hrun
          obtain ⟨pre, hpre, hlen1, hlen10, hSs, hR64, hcond⟩ :=
            ih _ (k + 1) R S B rest (by omega) hres' hrun
          refine ⟨b :: pre, by simp [hpre], by simp, ?_, ?_, hR64, ?_⟩
          · simp only [List.length_cons]
            omega
          · simp only [List.length_cons]
            rw [hSs]
            ring
          · simp only [List.length_cons]
            intro ht
            have he2 : 7 * (k + 1 + pre.length) = 7 * (k + (pre.length + 1)) := by ring
            have he3 : 7 * (k + 1 + pre.length) - 1 = 7 * (k + (pre.length + 1)) - 1 := by
              omega
            obtain ⟨hc1, hc2, hc3⟩ := hcond (by omega)
            rw [he2] at hc1
            rw [he3] at hc2 hc3
            exact ⟨hc1, hc2, hc3⟩
        · exfalso
          have hk9' : k = 9 := by omega
          subst hk9'
          have hb01 : b = 0 ∨ b = 127 := by
            rcases eq_or_ne b 0 with rfl | hb0
            · left; rfl
            · rcases eq_or_ne b 127 with rfl | hb1
              · right; rfl
              · exact absurd (by norm_num : 7 * 9 = 63) (fun hx => hover ⟨hx, hb0, hb1⟩)
          rcases hb01 with rfl | rfl <;> exact hterm (by decide)

/-- A successful `read_signed` consumes 1 to 10 bytes and, within nine
bytes, returns a value that fits in `7 * consumed - 1` signed bits. -/
theorem read_signed_range (l : List Nat) (v : Int) (rest : List Nat)
    (h : read_signed l = .ok (v, rest)) :
    ∃ pre, l = pre ++ rest ∧ 1 ≤ pre.length ∧ pre.length ≤ 10 ∧
      -(2 ^ 63 : Int) ≤ v ∧ v < 2 ^ 63 ∧
      (pre.length ≤ 9 →
        -(2 ^ (7 * pre.length - 1) : Int) ≤ v ∧ v < 2 ^ (7 * pre.length - 1)) := by
  rw [read_signed] at h
  cases hrun : readSignedLoop 0 0 l with
  | error e =>
    rw [hrun] at h
    simp [Except.map] at h
  | ok st =>
    obtain ⟨R, S, B, rest'⟩ := st
    rw [hrun] at h
    simp only [Except.map, Except.ok.injEq] at h
    have h0 : readSignedLoop 0 (7 * 0) l = .ok (R, S, B, rest') := by simpa using hrun
    obtain ⟨pre, hpre, h1, h10, hS, hR64, hcond⟩ :=
      readSignedLoop_consumed l 0 0 R S B rest' (by norm_num) (by norm_num) h0
    simp only [Nat.zero_add] at h10 hS hcond
    simp only [readSignedFinish, SIGN_BIT] at h
    by_cases hc9 : pre.length ≤ 9
    · have hS64 : S < 64 := by omega
      obtain ⟨hRlt, hset, hclear⟩ := hcond hc9
      have hpow2 : (2:Nat) ^ (7 * pre.length) = 2 * 2 ^ (7 * pre.length - 1) := by
        have he : 7 * pre.length = 7 * pre.length - 1 + 1 := by omega
        conv_lhs => rw [he]
        rw [pow_succ]
        ring
      have hple : (2:Nat) ^ (7 * pre.length) ≤ 2 ^ 63 :=
        Nat.pow_le_pow_right (by norm_num) (by omega)
      have hcast : ((2 ^ (7 * pre.length - 1) : Nat) : Int) = 2 ^ (7 * pre.length - 1) := by
        push_cast
        ring
      by_cases hbit : 64 &&& B = 64
      · rw [if_pos ⟨hS64, hbit⟩, Prod.mk.injEq] at h
        obtain ⟨hv, hrest⟩ := h
        have hmask := mask_shift_mod S (by omega)
        rw [hmask] at hv
        have hRS : R < 2 ^ S := by rw [hS]; exact hRlt
        have hOR := or_mask_eq_add hRS (by omega)
        rw [hOR] at hv
        have hSle : (2:Nat) ^ S ≤ 2 ^ 63 := by rw [hS]; exact hple
        rw [toInt64, if_neg (by omega)] at hv
        have hRge := hset hbit
        rw [hS] at hv hRS
        refine ⟨pre, by rw [hpre, hrest], h1, h10, ?_, ?_, fun _ => ⟨?_, ?_⟩⟩ <;> omega
      · rw [if_neg (fun hx => hbit hx.2), Prod.mk.injEq] at h
        obtain ⟨hv, hrest⟩ := h
        have hRlt' := hclear hbit
        rw [toInt64, if_pos (by omega)] at hv
        refine ⟨pre, by rw [hpre, hrest], h1, h10, ?_, ?_, fun _ => ⟨?_, ?_⟩⟩ <;> omega
    · -- ten bytes were consumed: only the global 64-bit range is claimed
      have hlen : pre.length = 10 := by omega
      by_cases hbr : S < 64 ∧ 64 &&& B = 64
      · rw [if_pos hbr, Prod.mk.injEq] at h
        obtain ⟨hv, hrest⟩ := h
        have hX : R ||| ((2 ^ 64 - 1) <<< S) % 2 ^ 64 < 2 ^ 64 :=
          Nat.or_lt_two_pow hR64 (Nat.mod_lt _ (by positivity))
        obtain ⟨hlo', hhi'⟩ := toInt64_range _ hX
        rw [hv] at hlo' hhi'
        exact ⟨pre, by rw [hpre, hrest], h1, h10, hlo', hhi', fun hx => by omega⟩
      · rw [if_neg hbr, Prod.mk.injEq] at h
        obtain ⟨hv, hrest⟩ := h
        obtain ⟨hlo', hhi'⟩ := toInt64_range _ hR64
        rw [hv] at hlo' hhi'
        exact ⟨pre, by rw [hpre, hrest], h1, h10, hlo', hhi', fun hx => by omega⟩

theorem payloadSum_replicate_128 (k : Nat) : payloadSum (List.replicate k 128) = 0 := by
  induction k with
  | zero => rfl
  | succ k ih =>
    simp [List.replicate_succ, payloadSum, ih]
    decide

/-! Claim theorems. -/

/-- C1: round-trip identity. For every `u64`, writing with `write_unsigned`
and reading the produced bytes with `read_unsigned` yields the value back
(consuming the whole output); likewise for every `i64` via `write_signed`
and `read_signed`. -/
theorem C1_roundtrip :
    (∀ v : Nat, v < 2 ^ 64 → read_unsigned (writeUnsignedBytes v) = .ok (v, [])) ∧
    (∀ v : Int, -(2 ^ 63 : Int) ≤ v → v < 2 ^ 63 →
      read_signed (writeSignedBytes v) = .ok (v, [])) := by
  constructor
  · intro v hv
    rw [read_unsigned]
    have h := readUnsignedLoop_write v 0 0 [] (by norm_num) (by norm_num; exact hv)
      (by norm_num)
    rw [List.append_nil] at h
    rw [h]
    norm_num
  · intro v h1 h2
    rw [read_signed]
    have h := readSignedLoop_write v 0 0 [] (by norm_num) (by norm_num)
      (by norm_num; exact h1) (by norm_num; exact h2) (by norm_num)
    rw [List.append_nil] at h
    rw [h]
    have he : ((0:Nat):Int) + v * 2 ^ 0 = v := by norm_num
    rw [he, toInt64_emod_self v h1 h2]

/-- Witness for C1 at the four extremal values. -/
theorem C1_roundtrip_witness :
    read_unsigned (writeUnsignedBytes 0) = .ok (0, []) ∧
    read_unsigned (writeUnsignedBytes (2 ^ 64 - 1)) = .ok (2 ^ 64 - 1, []) ∧
    read_signed (writeSignedBytes (-(2 ^ 63))) = .ok (-(2 ^ 63), []) ∧
    read_signed (writeSignedBytes (2 ^ 63 - 1)) = .ok (2 ^ 63 - 1, []) :=
  ⟨C1_roundtrip.1 0 (by norm_num), C1_roundtrip.1 (2 ^ 64 - 1) (by norm_num),
   C1_roundtrip.2 (-(2 ^ 63)) (by norm_num) (by norm_num),
   C1_roundtrip.2 (2 ^ 63 - 1) (by norm_num) (by norm_num)⟩

/-- C7: the DWARF standard example vectors, unsigned and signed. -/
theorem C7_known_vectors :
    writeUnsignedBytes 2 = [0x02] ∧
    writeUnsignedBytes 127 = [0x7f] ∧
    writeUnsignedBytes 128 = [0x80, 0x01] ∧
    writeUnsignedBytes 129 = [0x81, 0x01] ∧
    writeUnsignedBytes 130 = [0x82, 0x01] ∧
    writeUnsignedBytes 12857 = [0xb9, 0x64] ∧
    writeSignedBytes 2 = [0x02] ∧
    writeSignedBytes (-2) = [0x7e] ∧
    writeSignedBytes 127 = [0xff, 0x00] ∧
    writeSignedBytes (-127) = [0x81, 0x7f] ∧
    writeSignedBytes 128 = [0x80, 0x01] ∧
    writeSignedBytes (-128) = [0x80, 0x7f] ∧
    writeSignedBytes 129 = [0x81, 0x01] ∧
    writeSignedBytes (-129) = [0xff, 0x7e] := by
  refine ⟨?_, ?_, ?_, ?_, ?_, ?_, ?_, ?_, ?_, ?_, ?_, ?_, ?_, ?_⟩
  · rw [writeUnsignedBytes]; decide
  · rw [writeUnsignedBytes]; decide
  · rw [writeUnsignedBytes, writeUnsignedBytes]; decide
  · rw [writeUnsignedBytes, writeUnsignedBytes]; decide
  · rw [writeUnsignedBytes, writeUnsignedBytes]; decide
  · rw [writeUnsignedBytes, writeUnsignedBytes]; decide
  · rw [writeSignedBytes]; decide
  · rw [writeSignedBytes]; decide
  · rw [writeSignedBytes, writeSignedBytes]; decide
  · rw [writeSignedBytes, writeSignedBytes]; decide
  · rw [writeSignedBytes, writeSignedBytes]; decide
  · rw [writeSignedBytes, writeSignedBytes]; decide
  · rw [writeSignedBytes, writeSignedBytes]; decide
  · rw [writeSignedBytes, writeSignedBytes]; decide

/-- C8: sequential decode. Reading an encoded value followed by further
bytes consumes exactly the bytes of that value and leaves the source at the
start of the next one; in particular `[0x82, 0x01, 0x01]` decodes as `130`
and then `1`. -/
theorem C8_sequential :
    (∀ (v : Nat) (rest : List Nat), v < 2 ^ 64 →
      read_unsigned (writeUnsignedBytes v ++ rest) = .ok (v, rest)) ∧
    read_unsigned [0x82, 0x01, 0x01] = .ok (130, [0x01]) ∧
    read_unsigned [0x01] = .ok (1, []) := by
  refine ⟨?_, by rfl, by rfl⟩
  intro v rest hv
  rw [read_unsigned]
  have h := readUnsignedLoop_write v 0 0 rest (by norm_num) (by norm_num; exact hv)
    (by norm_num)
  rw [h]
  norm_num

/-- Witness for C8: the first value of the stream `[0x82, 0x01, 0x01]` is
the two-byte encoding of 130, and decoding stops right after it. -/
theorem C8_sequential_witness :
    read_unsigned (writeUnsignedBytes 130 ++ [0x01]) = .ok (130, [0x01]) :=
  C8_sequential.1 130 [0x01] (by norm_num)

/-- C10: the decoder does not require minimal encodings: a value whose
payload fits one byte, padded with any run of zero-payload continuation
bytes (up to the ten-byte limit), decodes to the same value; in particular
`[0x80, 0x00]` gives 0 and `[0x82, 0x80, 0x00]` gives 2, whose minimal
encodings are `[0x00]` and `[0x02]`. -/
theorem C10_non_minimal :
    (∀ b k, b < 128 → k ≤ 8 →
      read_unsigned ((b ||| 128) :: (List.replicate k 128 ++ [0x00])) = .ok (b, [])) ∧
    read_unsigned [0x80, 0x00] = .ok (0, []) ∧
    read_unsigned [0x82, 0x80, 0x00] = .ok (2, []) ∧
    writeUnsignedBytes 0 = [0x00] ∧
    writeUnsignedBytes 2 = [0x02] := by
  refine ⟨?_, by rfl, by rfl, by rw [writeUnsignedBytes]; decide, by rw [writeUnsignedBytes]; decide⟩
  intro b k hb hk
  rw [read_unsigned]
  have hchain := readUnsignedLoop_chain ((b ||| 128) :: List.replicate k 128) 0 0 [0x00]
    ?_ ?_ (by norm_num)
  · have hlen : ((b ||| 128) :: List.replicate k 128).length = k + 1 := by
      simp [List.length_replicate]
    have hps : payloadSum ((b ||| 128) :: List.replicate k 128) = b := by
      simp [payloadSum, payloadSum_replicate_128, or_128_and_127 hb]
    rw [show ((b ||| 128) :: (List.replicate k 128 ++ [0x00]))
        = ((b ||| 128) :: List.replicate k 128) ++ [0x00] by simp] at *
    rw [hchain, hlen, hps]
    rw [readUnsignedLoop]
    rw [if_neg (by omega : ¬(0 + 7 * (k + 1) = 63 ∧ (0:Nat) ≠ 0 ∧ (0:Nat) ≠ 1))]
    simp [low_bits_of_byte, CONTINUATION_BIT]
  · intro x hx
    rcases List.mem_cons.mp hx with rfl | hx'
    · exact or_128_cont_gen b
    · rw [List.eq_of_mem_replicate hx']
      decide
  · have hlen : ((b ||| 128) :: List.replicate k 128).length = k + 1 := by
      simp [List.length_replicate]
    rw [hlen]
    omega

/-- Witness for C10 with a two-byte zero-payload pad around the value 2. -/
theorem C10_non_minimal_witness :
    read_unsigned ((2 ||| 128) :: (List.replicate 1 128 ++ [0x00])) = .ok (2, []) :=
  C10_non_minimal.1 2 1 (by norm_num) (by norm_num)

/-- C3 counterexample: at the tenth byte (shift 63) the code compares the
whole byte against `0x00`/`0x01`, not its low-7-bit payload: the byte `0x80`
has payload `0x00`, which the claim calls legal, yet `read_unsigned`
signals overflow on it. -/
theorem C3_counterexample :
    read_unsigned (List.replicate 9 0x80 ++ [0x80, 0x00]) = .error .overflow ∧
    low_bits_of_byte 0x80 = 0x00 := ⟨by rfl, by rfl⟩

/-- C3 amended: once shift reaches 63 (the 10th byte), a byte whose whole
value is anything other than `0x00` or `0x01` (so in particular any byte
with the continuation bit still set) causes an overflow error; the bytes
`0x00` and `0x01` are legal there and terminate with the accumulated
value. -/
theorem C3_amended :
    ∀ (bs : List Nat) (b : Nat) (rest : List Nat),
      bs.length = 9 → (∀ x ∈ bs, x &&& 128 ≠ 0) →
      ((b ≠ 0x00 ∧ b ≠ 0x01) →
        read_unsigned (bs ++ b :: rest) = .error .overflow) ∧
      ((b = 0x00 ∨ b = 0x01) →
        read_unsigned (bs ++ b :: rest) = .ok (payloadSum bs + b * 2 ^ 63, rest)) := by
  intro bs b rest hlen hcont
  have hchain := readUnsignedLoop_chain bs 0 0 (b :: rest)
    (by intro x hx; simpa [CONTINUATION_BIT] using hcont x hx)
    (by rw [hlen]) (by norm_num)
  rw [hlen] at hchain
  norm_num at hchain
  constructor
  · intro ⟨h0, h1⟩
    rw [read_unsigned, hchain, readUnsignedLoop, if_pos ⟨rfl, h0, h1⟩]
  · intro hb
    have hps := payloadSum_lt bs
    rw [hlen] at hps
    norm_num at hps
    rw [read_unsigned, hchain, readUnsignedLoop]
    rw [if_neg (by omega : ¬((63:Nat) = 63 ∧ b ≠ 0x00 ∧ b ≠ 0x01))]
    have hlb : low_bits_of_byte b = b := by
      rw [low_bits_of_byte, and_127_eq_mod]
      omega
    have hterm : b &&& 128 = 0 := lt_128_cont_clear (by omega)
    simp only [hlb, CONTINUATION_BIT, if_pos hterm]
    rw [Nat.shiftLeft_eq, lor_mul_two_pow_eq_add hps]

/-- Witness for C3's amended statement: nine `0x80` bytes and a tenth byte
`0x01` decode to `2 ^ 63`. -/
theorem C3_amended_witness :
    read_unsigned (List.replicate 9 0x80 ++ [0x01]) =
      .ok (payloadSum (List.replicate 9 0x80) + 1 * 2 ^ 63, []) := by
  have h := (C3_amended (List.replicate 9 0x80) 0x01 [] (by simp)
    (by intro x hx; rw [List.eq_of_mem_replicate hx]; decide)).2 (Or.inr rfl)
  simpa using h

/-- C5: at shift 63 the signed reader accepts exactly the terminating bytes
`0x00` and `0x7f` and rejects every other terminating byte as overflow;
`0x00` yields the accumulated non-negative value and `0x7f` the correctly
sign-extended negative value (top bit set). -/
theorem C5_signed_tail :
    ∀ (bs : List Nat) (b : Nat) (rest : List Nat),
      bs.length = 9 → (∀ x ∈ bs, x &&& 128 ≠ 0) → b < 128 →
      ((b ≠ 0x00 ∧ b ≠ 0x7f) →
        read_signed (bs ++ b :: rest) = .error .overflow) ∧
      (b = 0x00 →
        read_signed (bs ++ b :: rest) = .ok ((payloadSum bs : Int), rest)) ∧
      (b = 0x7f →
        read_signed (bs ++ b :: rest) = .ok ((payloadSum bs : Int) - 2 ^ 63, rest)) := by
  intro bs b rest hlen hcont hblt
  have hchain := readSignedLoop_chain bs 0 0 (b :: rest)
    (by intro x hx; simpa [CONTINUATION_BIT] using hcont x hx)
    (by rw [hlen]) (by norm_num)
  rw [hlen] at hchain
  norm_num at hchain
  have hps := payloadSum_lt bs
  rw [hlen] at hps
  norm_num at hps
  refine ⟨?_, ?_, ?_⟩
  · intro ⟨h0, h1⟩
    rw [read_signed, hchain, readSignedLoop, if_pos ⟨rfl, h0, h1⟩]
    rfl
  · rintro rfl
    rw [read_signed, hchain, readSignedLoop]
    rw [if_neg (by omega : ¬((63:Nat) = 63 ∧ (0:Nat) ≠ 0x00 ∧ (0:Nat) ≠ 0x7f))]
    simp only [low_bits_of_byte, CONTINUATION_BIT]
    rw [if_pos (by decide : (0:Nat) &&& 128 = 0)]
    have hz : (0:Nat) &&& 127 = 0 := by decide
    rw [hz, Nat.zero_shiftLeft, Nat.zero_mod, Nat.or_zero]
    simp only [Except.map, readSignedFinish, SIGN_BIT]
    rw [if_neg (by omega : ¬(63 + 7 < 64 ∧ (64:Nat) &&& 0 = 64))]
    rw [toInt64, if_pos (by omega)]
  · rintro rfl
    rw [read_signed, hchain, readSignedLoop]
    rw [if_neg (by omega : ¬((63:Nat) = 63 ∧ (0x7f:Nat) ≠ 0x00 ∧ (0x7f:Nat) ≠ 0x7f))]
    simp only [low_bits_of_byte, CONTINUATION_BIT]
    rw [if_pos (by decide : (0x7f:Nat) &&& 128 = 0)]
    have h127 : (0x7f:Nat) &&& 127 = 127 := by decide
    rw [h127]
    have hsh : (127 : Nat) <<< 63 % 2 ^ 64 = 2 ^ 63 := by norm_num [Nat.shiftLeft_eq]
    rw [hsh]
    have hOR : payloadSum bs ||| 2 ^ 63 = payloadSum bs + 2 ^ 63 := by
      have := lor_mul_two_pow_eq_add (s := 63) hps 1
      norm_num at this
      exact this
    rw [hOR]
    simp only [Except.map, readSignedFinish, SIGN_BIT]
    rw [if_neg (by omega : ¬(63 + 7 < 64 ∧ (64:Nat) &&& 127 = 64))]
    rw [toInt64, if_neg (by omega)]
    rw [Except.ok.injEq, Prod.mk.injEq]
    constructor
    · push_cast
      omega
    · rfl

/-- Witness for C5: nine `0x80` bytes then `0x7f` decode to the most
negative `i64`, nine `0x80` bytes then `0x02` overflow. -/
theorem C5_signed_tail_witness :
    read_signed (List.replicate 9 0x80 ++ [0x7f]) =
      .ok ((payloadSum (List.replicate 9 0x80) : Int) - 2 ^ 63, []) ∧
    read_signed (List.replicate 9 0x80 ++ [0x02]) = .error .overflow :=
  ⟨(C5_signed_tail (List.replicate 9 0x80) 0x7f [] (by simp)
      (by intro x hx; rw [List.eq_of_mem_replicate hx]; decide) (by norm_num)).2.2 rfl,
   (C5_signed_tail (List.replicate 9 0x80) 0x02 [] (by simp)
      (by intro x hx; rw [List.eq_of_mem_replicate hx]; decide) (by norm_num)).1
     (by norm_num)⟩

/-- C9: both decoders inspect at most ten bytes: every successful decode
consumes between one and ten bytes (leaving the rest), and an arbitrarily
long all-continuation stream is rejected as overflow at the tenth byte
rather than looping or shifting past the word width. -/
theorem C9_bounded_consumption :
    (∀ l (v : Nat) rest, read_unsigned l = .ok (v, rest) →
      ∃ pre, l = pre ++ rest ∧ 1 ≤ pre.length ∧ pre.length ≤ 10) ∧
    (∀ l (v : Int) rest, read_signed l = .ok (v, rest) →
      ∃ pre, l = pre ++ rest ∧ 1 ≤ pre.length ∧ pre.length ≤ 10) ∧
    (∀ n, read_unsigned (List.replicate (n + 10) 0x80) = .error .overflow) ∧
    (∀ n, read_signed (List.replicate (n + 10) 0x80) = .error .overflow) := by
  refine ⟨?_, ?_, ?_, ?_⟩
  · intro l v rest h
    rw [read_unsigned] at h
    obtain ⟨pre, hpre, h1, h10, _⟩ :=
      readUnsignedLoop_consumed l 0 0 v rest (by norm_num) (by norm_num)
        (by simpa using h)
    exact ⟨pre, hpre, h1, by omega⟩
  · intro l v rest h
    obtain ⟨pre, hpre, h1, h10, _⟩ := read_signed_range l v rest h
    exact ⟨pre, hpre, h1, h10⟩
  · intro n
    have hsplit : List.replicate (n + 10) 0x80
        = List.replicate 9 0x80 ++ (0x80 :: List.replicate n 0x80) := by
      rw [show n + 10 = 9 + (n + 1) by omega, List.replicate_add]
      simp [List.replicate_succ]
    rw [hsplit, read_unsigned]
    rw [readUnsignedLoop_chain (List.replicate 9 0x80) 0 0 _
      (by intro x hx; rw [List.eq_of_mem_replicate hx]; decide) (by simp) (by norm_num)]
    simp only [List.length_replicate]
    rw [readUnsignedLoop, if_pos (by norm_num : (0:Nat) + 7 * 9 = 63
      ∧ (0x80:Nat) ≠ 0x00 ∧ (0x80:Nat) ≠ 0x01)]
  · intro n
    have hsplit : List.replicate (n + 10) 0x80
        = List.replicate 9 0x80 ++ (0x80 :: List.replicate n 0x80) := by
      rw [show n + 10 = 9 + (n + 1) by omega, List.replicate_add]
      simp [List.replicate_succ]
    rw [hsplit, read_signed]
    rw [readSignedLoop_chain (List.replicate 9 0x80) 0 0 _
      (by intro x hx; rw [List.eq_of_mem_replicate hx]; decide) (by simp) (by norm_num)]
    simp only [List.length_replicate]
    rw [readSignedLoop, if_pos (by norm_num : (0:Nat) + 7 * 9 = 63
      ∧ (0x80:Nat) ≠ 0x00 ∧ (0x80:Nat) ≠ 0x7f)]
    rfl

/-- Witness for C9 at the single-byte stream `[0x02]`. -/
theorem C9_bounded_consumption_witness :
    (∃ pre, ([0x02] : List Nat) = pre ++ ([] : List Nat) ∧ 1 ≤ pre.length ∧ pre.length ≤ 10) ∧
    (∃ pre, ([0x02] : List Nat) = pre ++ ([] : List Nat) ∧ 1 ≤ pre.length ∧ pre.length ≤ 10) :=
  ⟨C9_bounded_consumption.1 [0x02] 2 [] (by rfl),
   C9_bounded_consumption.2.1 [0x02] 2 [] (by rfl)⟩

/-- C4: on the `io::Read` impl an exhausted source mid-value yields the
end-of-input error (distinct from overflow), for any all-continuation
prefix short enough that the overflow check never fires; but the
`bytes::Buf` impl calls `get_u8`, which asserts on an exhausted buffer, so
that impl aborts instead of returning the error its own tests expect. -/
theorem C4_truncated :
    (∀ l : List Nat, l.length ≤ 9 → (∀ b ∈ l, b &&& 128 ≠ 0) →
      read_unsigned l = .error .eof ∧ read_signed l = .error .eof) ∧
    Error.eof ≠ Error.overflow ∧
    read_unsigned_buf [0x80] = none ∧
    read_signed_buf [0x80] = none := by
  refine ⟨?_, by decide, by rfl, by rfl⟩
  intro l hlen hcont
  constructor
  · rw [read_unsigned, show l = l ++ [] from (List.append_nil l).symm,
      readUnsignedLoop_chain l 0 0 []
        (fun b hb => by simpa [CONTINUATION_BIT] using hcont b hb) (by omega) (by norm_num)]
    rfl
  · rw [read_signed, show l = l ++ [] from (List.append_nil l).symm,
      readSignedLoop_chain l 0 0 []
        (fun b hb => by simpa [CONTINUATION_BIT] using hcont b hb) (by omega) (by norm_num)]
    rfl

/-- Witness for C4 at the single truncated byte `0x80`. -/
theorem C4_truncated_witness :
    read_unsigned [0x80] = .error .eof ∧ read_signed [0x80] = .error .eof :=
  C4_truncated.1 [0x80] (by norm_num)
    (by intro b hb; rw [List.mem_singleton] at hb; subst hb; decide)

/-- C2: on a bounded `BufMut` sink (capacity one) the encoders abort inside
`put_u8` when emitting the second byte of the value 128 — the byte already
accepted stays in the sink — and no input can ever make them return the
`Err` variant of their declared result type. -/
theorem C2_write_capacity :
    writeUnsignedBounded 128 ⟨1, []⟩ 0 = .panicked ⟨1, [0x80]⟩ ∧
    writeSignedBounded 128 ⟨1, []⟩ 0 = .panicked ⟨1, [0x80]⟩ ∧
    (∀ (val : Nat) (w : BoundedBuf) (c : Nat), writeUnsignedBounded val w c ≠ .err) ∧
    (∀ (val : Int) (w : BoundedBuf) (c : Nat), writeSignedBounded val w c ≠ .err) := by
  refine ⟨?_, ?_, ?_, ?_⟩
  · rw [writeUnsignedBounded.eq_def]
    norm_num [BoundedBuf.put_u8, low_bits_of_u64, low_bits_of_byte]
    rw [writeUnsignedBounded.eq_def]
    norm_num [BoundedBuf.put_u8, low_bits_of_u64, low_bits_of_byte]
    decide
  · rw [writeSignedBounded.eq_def]
    norm_num [BoundedBuf.put_u8]
    rw [writeSignedBounded.eq_def]
    norm_num [BoundedBuf.put_u8]
    decide
  · intro val
    induction val using writeUnsignedBytes.induct with
    | case1 v h =>
      intro w c
      rw [writeUnsignedBounded]
      cases hput : w.put_u8 (if v >>> 7 ≠ 0 then low_bits_of_u64 v ||| CONTINUATION_BIT
          else low_bits_of_u64 v) with
      | none => simp
      | some w' => simp [h]
    | case2 v h ih =>
      intro w c
      rw [writeUnsignedBounded]
      cases hput : w.put_u8 (if v >>> 7 ≠ 0 then low_bits_of_u64 v ||| CONTINUATION_BIT
          else low_bits_of_u64 v) with
      | none => simp
      | some w' =>
        simp only [if_neg h]
        exact ih w' (c + 1)
  · intro val
    induction val using writeSignedBytes.induct with
    | case1 v h =>
      intro w c
      rw [writeSignedBounded]
      cases hput : w.put_u8 (if Int.fdiv v 64 = 0 ∨ Int.fdiv v 64 = -1
          then (v % 256).toNat &&& 127 else (v % 256).toNat ||| CONTINUATION_BIT) with
      | none => simp
      | some w' => simp [h]
    | case2 v h ih =>
      intro w c
      rw [writeSignedBounded]
      cases hput : w.put_u8 (if Int.fdiv v 64 = 0 ∨ Int.fdiv v 64 = -1
          then (v % 256).toNat &&& 127 else (v % 256).toNat ||| CONTINUATION_BIT) with
      | none => simp
      | some w' =>
        simp only [if_neg h]
        exact ih w' (c + 1)

/-- C6: `write_unsigned` and `write_signed` return exactly the number of
bytes they append to the sink; zero encodes as the single byte `0x00`; no
successful decode of a value consumes fewer bytes than the writer emits for
it (minimality); and the emitted length is always between 1 and 10. -/
theorem C6_minimal :
    (∀ (w : List Nat) (v : Nat), write_unsigned w v
        = ((writeUnsignedBytes v).length, w ++ writeUnsignedBytes v)) ∧
    (∀ (w : List Nat) (v : Int), write_signed w v
        = ((writeSignedBytes v).length, w ++ writeSignedBytes v)) ∧
    writeUnsignedBytes 0 = [0x00] ∧
    (∀ (l : List Nat) (v : Nat) (rest : List Nat), read_unsigned l = .ok (v, rest) →
      (writeUnsignedBytes v).length ≤ l.length - rest.length) ∧
    (∀ (l : List Nat) (v : Int) (rest : List Nat), read_signed l = .ok (v, rest) →
      (writeSignedBytes v).length ≤ l.length - rest.length) ∧
    (∀ v : Nat, v < 2 ^ 64 →
      1 ≤ (writeUnsignedBytes v).length ∧ (writeUnsignedBytes v).length ≤ 10) ∧
    (∀ v : Int, -(2 ^ 63 : Int) ≤ v → v < 2 ^ 63 →
      1 ≤ (writeSignedBytes v).length ∧ (writeSignedBytes v).length ≤ 10) := by
  refine ⟨?_, ?_, by rw [writeUnsignedBytes]; decide, ?_, ?_, ?_, ?_⟩
  · intro w v
    rw [write_unsigned, writeUnsignedLoop_eq]
    norm_num
  · intro w v
    rw [write_signed, writeSignedLoop_eq]
    norm_num
  · intro l v rest h
    rw [read_unsigned] at h
    obtain ⟨pre, hpre, h1, h10, hv⟩ :=
      readUnsignedLoop_consumed l 0 0 v rest (by norm_num) (by norm_num)
        (by simpa using h)
    have hlen : l.length = pre.length + rest.length := by rw [hpre, List.length_append]
    have := writeUnsignedBytes_length_le v pre.length h1 (by simpa using hv)
    omega
  · intro l v rest h
    obtain ⟨pre, hpre, h1, h10, hglo, hghi, hcond⟩ := read_signed_range l v rest h
    have hlen : l.length = pre.length + rest.length := by rw [hpre, List.length_append]
    rcases Nat.lt_or_ge pre.length 10 with h9 | h10'
    · obtain ⟨hrlo, hrhi⟩ := hcond (by omega)
      have := writeSignedBytes_length_le v pre.length h1 hrlo hrhi
      omega
    · have h69 : (2:Int) ^ 63 ≤ 2 ^ (7 * 10 - 1) := by norm_num
      have := writeSignedBytes_length_le v 10 (by norm_num) (by omega) (by omega)
      omega
  · intro v hv
    refine ⟨writeUnsignedBytes_length_pos v, ?_⟩
    exact writeUnsignedBytes_length_le v 10 (by norm_num)
      (lt_of_lt_of_le hv (by norm_num))
  · intro v h1 h2
    refine ⟨writeSignedBytes_length_pos v, ?_⟩
    have h69 : (2:Int) ^ 63 ≤ 2 ^ (7 * 10 - 1) := by norm_num
    exact writeSignedBytes_length_le v 10 (by norm_num) (by omega) (by omega)

/-- Witness for C6: minimality and length bounds at concrete decodes. -/
theorem C6_minimal_witness :
    (writeUnsignedBytes 128).length ≤ ([0x80, 0x01] : List Nat).length - ([] : List Nat).length ∧
    (writeSignedBytes (-2)).length ≤ ([0x7e] : List Nat).length - ([] : List Nat).length ∧
    (1 ≤ (writeUnsignedBytes 12857).length ∧ (writeUnsignedBytes 12857).length ≤ 10) :=
  ⟨C6_minimal.2.2.2.1 [0x80, 0x01] 128 [] (by rfl),
   C6_minimal.2.2.2.2.1 [0x7e] (-2) [] (by rfl),
   C6_minimal.2.2.2.2.2.1 12857 (by norm_num)⟩

end Leb128
